import Mathlib

/-
  Verification of the FIBRIL voice-allocation engine.

  Shallow embedding of the Python sources:
    - fibril_classes.py     : Rank, Voice, SystemState and the Gray decoder
    - fibril-algorithms.py  : class FibrilAlgorithm (allocate_voices pipeline)
    - fibril_algorithms.py  : module-level helpers (allocate_voice_safely,
                              weighted_random_selection, get_active_midi_notes)
    - fibril_main.py        : the control-message handlers for /sustain and
                              /keyCenter
  plus a model, built from the specification text, of the sustain freeze
  machine and the allocator contract (the sustain machinery that the spec
  and the test files describe is not present in the source tree; only its
  data model and its tests are).

  Conventions: Python ints are embedded as Int (the percent operator on Int
  in Lean is Euclidean remainder, which agrees with Python for the positive
  moduli used here).  Python truthiness checks are translated exactly as the
  source writes them.  Floating-point probability maps are abstracted as
  rational-valued maps that the theorems quantify over; the pseudo-random
  draws are passed in as explicit oracle arguments.
-/

namespace Fibril

/-! ## Data model (fibril_classes.py) -/

/-- Voice record, from the Voice dataclass in fibril_classes.py.
    The source stores volume as an int (0 = off, 1 = on). -/
structure Voice where
  midi_note : ℤ
  volume : ℤ
  id : ℕ
  sustained : Bool
  deriving DecidableEq, Repr

instance : Inhabited Voice := ⟨{ midi_note := 0, volume := 0, id := 0, sustained := false }⟩

/-- Rank record, from the Rank dataclass in fibril_classes.py.
    Only the fields used by the allocator are carried. -/
structure Rank where
  number : ℕ
  position : ℕ
  grey_code : List ℕ
  gci : ℕ
  density : ℕ
  tonicization : ℕ
  previous_gci : ℕ
  deriving DecidableEq, Repr

/-- SystemState record, from the SystemState dataclass in fibril_classes.py.
    frozen_voices is the list of (voice_id, midi_note) pairs. -/
structure SystemState where
  sustain : Bool
  previous_sustain : Bool
  key_center : ℤ
  ranks : List Rank
  voices : List Voice
  frozen_voices : List (ℕ × ℤ)
  deriving DecidableEq, Repr

/-! ## Gray decoder (fibril_classes.py, Rank._grey_to_int) -/

/-- Fuel-indexed version of the while loop in Rank._grey_to_int:
    res starts at 0 and accumulates mask by xor while mask is shifted right.
    The fuel argument only realises termination; grayFold passes enough. -/
def grayFoldAux : ℕ → ℕ → ℕ
  | 0, _ => 0
  | fuel + 1, mask => if mask = 0 then 0 else mask ^^^ grayFoldAux fuel (mask >>> 1)

/-- The xor-fold res = mask xor (mask >> 1) xor (mask >> 2) xor ... from
    Rank._grey_to_int.  Since mask >> 1 < mask for mask > 0, a fuel of mask
    itself is sufficient. -/
def grayFold (mask : ℕ) : ℕ := grayFoldAux mask mask

/-- Rank._grey_to_int: build b from the bit list MSB-first, then xor-fold. -/
def grey_to_int (grey : List ℕ) : ℕ :=
  let b := grey.foldl (fun acc bit => (acc <<< 1) ||| bit) 0
  grayFold b

/-- The 4-bit standard binary-to-Gray encoding of n, written MSB-first,
    used to state the round-trip property. -/
def grayEncodeBits (n : ℕ) : List ℕ :=
  let g := n ^^^ (n >>> 1)
  [(g >>> 3) % 2, (g >>> 2) % 2, (g >>> 1) % 2, g % 2]

/-! ## Control-state handlers (fibril_main.py) -/

/-- Decoded OSC control message: an address string and one integer value. -/
structure OscMessage where
  address : String
  value : ℤ
  deriving DecidableEq, Repr

/-- FibrilMain._update_control_state (fibril_main.py lines 461-486): the
    handler for messages arriving on the control port 1762.  Returns the new
    state and the state_changed flag.  Note the /keyCenter branch reduces
    the received value modulo 12. -/
def update_control_state (s : SystemState) (msg : OscMessage) : SystemState × Bool :=
  if msg.address = "/sustain" then
    let newSustain := decide (msg.value ≠ 0)
    ({ s with sustain := newSustain }, decide (s.sustain ≠ newSustain))
  else if msg.address = "/keyCenter" then
    let newKey := msg.value % 12
    ({ s with key_center := newKey }, decide (s.key_center ≠ newKey))
  else
    (s, false)

/-- The /keyCenter branch of FibrilMain._update_system_state
    (fibril_main.py lines 207-216): stores the full MIDI value, with the
    source comment "Full MIDI value, not modulo 12". -/
def update_system_state_key_center (s : SystemState) (value : ℤ) : SystemState × Bool :=
  ({ s with key_center := value }, decide (s.key_center ≠ value))

/-! ## Module-level helpers (fibril_algorithms.py) -/

/-- get_active_midi_notes (fibril_algorithms.py lines 35-37): MIDI notes of
    voices whose volume is truthy and which are not sustained. -/
def get_active_midi_notes (voices : List Voice) : List ℤ :=
  (voices.filter (fun v => decide (v.volume ≠ 0) && !v.sustained)).map (fun v => v.midi_note)

/-- allocate_voice_safely (fibril_algorithms.py lines 325-359).  The global
    fibril_system.voices array is passed explicitly; the returned pair is
    (return value, voices after the call). -/
def allocate_voice_safely (voices : List Voice) (voice_id : Option ℤ) (midi_note : ℤ) :
    Bool × List Voice :=
  match voice_id with
  | none => (false, voices)
  | some vid =>
    if ¬ (1 ≤ vid ∧ vid ≤ 48) then (false, voices)
    else if ¬ (0 ≤ midi_note ∧ midi_note ≤ 127) then (false, voices)
    else
      let target := voices.getD (vid - 1).toNat default
      if target.sustained then (false, voices)
      else if midi_note ∈ get_active_midi_notes voices then (false, voices)
      else
        (true, voices.set (vid - 1).toNat
          { target with midi_note := midi_note, volume := 1, sustained := false })

/-- Scan of the cumulative distribution in weighted_random_selection:
    the source compares the roll against the partial sums of prob/total and
    returns the first index at which the roll is reached, or none when the
    list is exhausted.  random.random() is the roll argument. -/
def wrsAccum : List ℚ → ℚ → ℚ → ℚ → ℕ → Option ℕ
  | [], _, _, _, _ => none
  | p :: rest, total, roll, acc, idx =>
    if roll ≤ acc + p / total then some idx
    else wrsAccum rest total roll (acc + p / total) (idx + 1)

/-- weighted_random_selection (fibril_algorithms.py lines 291-316), the
    entry point.  When the total probability is zero or less it falls back
    to the uniform middle-range draw; otherwise it scans the cumulative
    distribution and falls back to the last index. -/
def weighted_random_selection (prob_map : List ℚ) (roll : ℚ) (fallback : ℕ) : ℤ :=
  let total := prob_map.sum
  if total ≤ 0 then 48 + ((fallback % 37 : ℕ) : ℤ)
  else
    match wrsAccum prob_map total roll 0 0 with
    | some i => (i : ℤ)
    | none => (prob_map.length : ℤ) - 1

/-! ### Lemmas about the Gray decoder and the selection helpers -/

theorem wrsAccum_some_bounds :
    ∀ (l : List ℚ) (total roll acc : ℚ) (idx i : ℕ),
      wrsAccum l total roll acc idx = some i → idx ≤ i ∧ i < idx + l.length := by
  intro l
  induction l with
  | nil => intro total roll acc idx i h; simp [wrsAccum] at h
  | cons p rest ih =>
    intro total roll acc idx i h
    simp only [wrsAccum] at h
    by_cases hle : roll ≤ acc + p / total
    · rw [if_pos hle] at h
      cases h
      simp
    · rw [if_neg hle] at h
      have hrec := ih total roll (acc + p / total) (idx + 1) i h
      simp only [List.length_cons]
      omega

/-- C7: for every 4-bit list the decoder Rank._grey_to_int returns
    B xor (B >> 1) xor (B >> 2) xor (B >> 3) where B is the MSB-first binary
    value of the bits, and decoding the standard 4-bit Gray encoding of any
    n in 0..15 yields n again (round trip over all 16 inputs). -/
theorem grey_to_int_correct :
    (∀ b0 b1 b2 b3 : Fin 2,
      grey_to_int [b0.val, b1.val, b2.val, b3.val] =
        (8 * b0.val + 4 * b1.val + 2 * b2.val + b3.val) ^^^
        ((8 * b0.val + 4 * b1.val + 2 * b2.val + b3.val) >>> 1) ^^^
        ((8 * b0.val + 4 * b1.val + 2 * b2.val + b3.val) >>> 2) ^^^
        ((8 * b0.val + 4 * b1.val + 2 * b2.val + b3.val) >>> 3)) ∧
    (∀ n : Fin 16, grey_to_int (grayEncodeBits n.val) = n.val) := by
  decide

/-- Concrete system state used to evaluate the key-center handlers. -/
def kcProbeState : SystemState :=
  { sustain := false, previous_sustain := false, key_center := 60,
    ranks := [], voices := [], frozen_voices := [] }

/-- C8: evaluating both /keyCenter handlers of fibril_main.py at the
    received value 66.  The control-port handler _update_control_state
    stores 66 mod 12 = 6, while the rank-port handler _update_system_state
    stores the full MIDI value 66 - the control path contradicts the claim,
    the sibling handler and the repository's own key-center test. -/
theorem key_center_control_path_reduces_mod12 :
    (update_control_state kcProbeState { address := "/keyCenter", value := 66 }).1.key_center = 6 ∧
    (update_system_state_key_center kcProbeState 66).1.key_center = 66 ∧ (6 : ℤ) ≠ 66 := by
  refine ⟨by decide, by decide, by decide⟩

/-- C10: weighted_random_selection is total on 128-bin weight lists: the
    result always lies in 0..127, and whenever the weights sum to zero or
    less it is the uniform fallback draw 48 + fallback mod 37, hence within
    48..84. -/
theorem weighted_random_selection_total (prob_map : List ℚ) (roll : ℚ) (fallback : ℕ)
    (h : prob_map.length = 128) :
    (0 ≤ weighted_random_selection prob_map roll fallback ∧
      weighted_random_selection prob_map roll fallback ≤ 127) ∧
    (prob_map.sum ≤ 0 →
      weighted_random_selection prob_map roll fallback = 48 + ((fallback % 37 : ℕ) : ℤ) ∧
      48 ≤ weighted_random_selection prob_map roll fallback ∧
      weighted_random_selection prob_map roll fallback ≤ 84) := by
  unfold weighted_random_selection
  by_cases ht : prob_map.sum ≤ 0
  · simp only [if_pos ht]
    have h37 : (fallback % 37) < 37 := Nat.mod_lt _ (by norm_num)
    have h37z : ((fallback % 37 : ℕ) : ℤ) < 37 := by exact_mod_cast h37
    have h0z : (0 : ℤ) ≤ ((fallback % 37 : ℕ) : ℤ) := Int.ofNat_nonneg _
    exact ⟨⟨by omega, by omega⟩, fun _ => ⟨by trivial, by omega, by omega⟩⟩
  · simp only [if_neg ht]
    cases hw : wrsAccum prob_map prob_map.sum roll 0 0 with
    | none =>
      refine ⟨⟨?_, ?_⟩, fun hc => absurd hc ht⟩
      · show (0 : ℤ) ≤ (prob_map.length : ℤ) - 1
        rw [h]; norm_num
      · show (prob_map.length : ℤ) - 1 ≤ 127
        rw [h]; norm_num
    | some i =>
      have hb := wrsAccum_some_bounds prob_map prob_map.sum roll 0 0 i hw
      rw [h] at hb
      refine ⟨⟨?_, ?_⟩, fun hc => absurd hc ht⟩
      · show (0 : ℤ) ≤ (i : ℤ)
        exact Int.ofNat_nonneg _
      · show (i : ℤ) ≤ 127
        have hi : i < 128 := by omega
        omega

/-- C10 witness: a concrete all-zero 128-bin weight list takes the fallback
    branch and lands in the middle range. -/
theorem weighted_random_selection_total_witness :
    (0 ≤ weighted_random_selection (List.replicate 128 (0 : ℚ)) (1/2) 5 ∧
      weighted_random_selection (List.replicate 128 (0 : ℚ)) (1/2) 5 ≤ 127) ∧
    ((List.replicate 128 (0 : ℚ)).sum ≤ 0 →
      weighted_random_selection (List.replicate 128 (0 : ℚ)) (1/2) 5 = 48 + ((5 % 37 : ℕ) : ℤ) ∧
      48 ≤ weighted_random_selection (List.replicate 128 (0 : ℚ)) (1/2) 5 ∧
      weighted_random_selection (List.replicate 128 (0 : ℚ)) (1/2) 5 ≤ 84) :=
  weighted_random_selection_total (List.replicate 128 (0 : ℚ)) (1/2) 5 (by simp)

/-! ## The FibrilAlgorithm class (fibril-algorithms.py)

The allocate_voices pipeline.  The global probability map is built from
floating-point Gaussians in the source (_build_global_probability_map);
here it enters as an arbitrary rational-valued 128-bin list pmap, and the
calls to random.random() and random.choice() inside the sampling step are
supplied by the oracle arguments rolls and choices, indexed by draw
number.  The write-only rooted_notes_cache attribute is omitted: nothing
in the source ever reads it. -/

/-- FibrilAlgorithm._handle_sustain (fibril-algorithms.py lines 145-167):
    when the pedal is down, collect the sounding (midi, index) pairs;
    if more than 48 exist, silence the lowest MIDI notes and keep the
    highest 48; return the set of sustained MIDI notes. -/
def handle_sustain (s : SystemState) : SystemState × Finset ℤ :=
  if s.sustain then
    let active := (s.voices.enum.filter (fun p => decide (0 < p.2.volume))).map
      (fun p => (p.2.midi_note, p.1))
    if 48 < active.length then
      let sorted := active.mergeSort (fun a b => decide (a.1 ≤ b.1))
      let toRelease := sorted.take (sorted.length - 48)
      let kept := sorted.drop (sorted.length - 48)
      let voices2 := toRelease.foldl
        (fun vs p => vs.set p.2 { vs.getD p.2 default with volume := 0 }) s.voices
      ({ s with voices := voices2 }, (kept.map Prod.fst).toFinset)
    else (s, (active.map Prod.fst).toFinset)
  else (s, ∅)

/-- Scale-degree offset table of FibrilAlgorithm._get_rank_root
    (fibril-algorithms.py line 199), with the dict default 0. -/
def scale_degree_offsets (t : ℕ) : ℤ :=
  match t with
  | 1 => 0 | 2 => 2 | 3 => 4 | 4 => 5 | 5 => 7 | 6 => 9 | 7 => 11 | 8 => 0
  | _ => 0

/-- FibrilAlgorithm._get_rank_root (fibril-algorithms.py lines 197-201). -/
def get_rank_root (rank : Rank) (key_center : ℤ) : ℤ :=
  (key_center + scale_degree_offsets rank.tonicization) % 12

/-- FibrilAlgorithm._choose_optimal_octave (fibril-algorithms.py lines
    215-231).  int(priority_factor * 2) truncates toward zero, which is
    Int.tdiv; the double-slash clamps use Python floor division Int.fdiv. -/
def choose_optimal_octave (midi_note_class : ℤ) (rank_priority : ℕ) : ℤ :=
  let base_octave : ℤ := 4 + Int.tdiv ((8 - (rank_priority : ℤ)) * 2) 8
  let target_midi := midi_note_class + base_octave * 12
  if 127 < target_midi then Int.fdiv (127 - midi_note_class) 12
  else if target_midi < 0 then Int.fdiv (- midi_note_class) 12 + 1
  else base_octave

/-- The stealing scan of FibrilAlgorithm._find_or_steal_voice: keep the
    index of the highest midi_note seen so far, starting from score -1. -/
def steal_scan : List Voice → ℕ → ℕ → ℤ → ℕ
  | [], _, wIdx, _ => wIdx
  | v :: rest, i, wIdx, wScore =>
    if wScore < v.midi_note then steal_scan rest (i + 1) i v.midi_note
    else steal_scan rest (i + 1) wIdx wScore

/-- FibrilAlgorithm._find_or_steal_voice (fibril-algorithms.py lines
    233-252): first silent voice if any, else the voice holding the
    highest MIDI note. -/
def find_or_steal_voice (vs : List Voice) : ℕ :=
  match vs.findIdx? (fun v => decide (v.volume = 0)) with
  | some i => i
  | none => steal_scan vs 0 0 (-1)

/-- FibrilAlgorithm._force_allocate_note (fibril-algorithms.py lines
    203-213): pick the octave, pick the voice, write midi and volume. -/
def force_allocate_note (vs : List Voice) (midi_note_class : ℤ) (rank_priority : ℕ) :
    List Voice :=
  let best_octave := choose_optimal_octave midi_note_class rank_priority
  let target_midi := midi_note_class + best_octave * 12
  let idx := find_or_steal_voice vs
  vs.set idx { vs.getD idx default with midi_note := target_midi, volume := 1 }

/-- The per-voice scan inside the presence checks of
    FibrilAlgorithm._ensure_rooted_notes: some sounding voice has the
    given pitch class. -/
def pc_present (vs : List Voice) (pc : ℤ) : Bool :=
  vs.any (fun v => decide (0 < v.volume) && decide (v.midi_note % 12 = pc))

/-- The root_present / fifth_present expression of
    FibrilAlgorithm._ensure_rooted_notes (fibril-algorithms.py lines
    178-186): any octave of the pitch class among the sustained notes, or
    any sounding voice carrying the pitch class. -/
def root_present_check (sust : Finset ℤ) (vs : List Voice) (pc : ℤ) : Bool :=
  (List.range 11).any (fun oct =>
    decide ((pc + (oct : ℤ) * 12) ∈ sust) || pc_present vs pc)

/-- One iteration of the rank loop in FibrilAlgorithm._ensure_rooted_notes
    (fibril-algorithms.py lines 169-195): check root and fifth presence on
    the current voices, then force-allocate whichever is missing. -/
def ensure_rooted_step (key_center : ℤ) (sust : Finset ℤ) (vs : List Voice) (rank : Rank) :
    List Voice :=
  let root_midi := get_rank_root rank key_center
  let fifth_midi := (root_midi + 7) % 12
  let root_present := root_present_check sust vs root_midi
  let fifth_present := root_present_check sust vs fifth_midi
  let vs1 := if root_present then vs else force_allocate_note vs root_midi rank.position
  if fifth_present then vs1 else force_allocate_note vs1 fifth_midi rank.position

/-- FibrilAlgorithm._ensure_rooted_notes: fold of the per-rank step over
    the active ranks. -/
def ensure_rooted_notes (key_center : ℤ) (sust : Finset ℤ) (active_ranks : List Rank)
    (vs : List Voice) : List Voice :=
  active_ranks.foldl (ensure_rooted_step key_center sust) vs

/-- The cumulative scan of FibrilAlgorithm._sample_from_probability_map:
    walk the (index, weight) pairs accumulating weight, return the first
    index reaching the draw, or the last index if none does. -/
def pickFrom : List (ℕ × ℚ) → ℚ → ℚ → Option ℕ
  | [], _, _ => none
  | (i, w) :: rest, rand, acc =>
    if rand ≤ acc + w then some i
    else
      match pickFrom rest rand (acc + w) with
      | some j => some j
      | none => some i

/-- FibrilAlgorithm._sample_from_probability_map (fibril-algorithms.py
    lines 323-350): filter the map to the positive-weight indices outside
    the forbidden set; none when the filter is empty; random.choice when
    the total weight is zero (modelled by the choice oracle); otherwise the
    weighted draw at rand_val = roll * total_weight. -/
def sample_from_probability_map (pmap : List ℚ) (forbidden : Finset ℤ) (roll : ℚ)
    (choice : ℕ) : Option ℕ :=
  let valid := (List.range pmap.length).filter
    (fun (i : ℕ) => decide (((i : ℤ) ∉ forbidden)) && decide (0 < pmap.getD i 0))
  if valid = [] then none
  else
    let weights := valid.map (fun i => (i, pmap.getD i 0))
    let total := (weights.map Prod.snd).sum
    if total = 0 then some (valid.getD (choice % valid.length) 0)
    else pickFrom weights (roll * total) 0

/-- The per-draw loop of FibrilAlgorithm._allocate_remaining_voices
    (fibril-algorithms.py lines 313-321): the first argument is the number
    of draws left, the second the draw counter feeding the oracles. -/
def alloc_loop (pmap : List ℚ) (rolls : ℕ → ℚ) (choices : ℕ → ℕ) :
    ℕ → ℕ → List Voice → Finset ℤ → List Voice
  | 0, _, vs, _ => vs
  | n + 1, t, vs, forb =>
    match sample_from_probability_map pmap forb (rolls t) (choices t) with
    | none => alloc_loop pmap rolls choices n (t + 1) vs forb
    | some m =>
      let idx := find_or_steal_voice vs
      alloc_loop pmap rolls choices n (t + 1)
        (vs.set idx { vs.getD idx default with midi_note := (m : ℤ), volume := 1 })
        (insert ((m : ℤ)) forb)

/-- FibrilAlgorithm._allocate_remaining_voices (fibril-algorithms.py lines
    297-321): count the sounding voices, return if the budget is already
    met, otherwise sample the remaining allocations avoiding the sustained
    and the already-sounding MIDI notes. -/
def allocate_remaining_voices (vs : List Voice) (pmap : List ℚ) (sust : Finset ℤ)
    (available : ℕ) (rolls : ℕ → ℚ) (choices : ℕ → ℕ) : List Voice :=
  let allocated := (vs.filter (fun v => decide (0 < v.volume))).length
  if available ≤ allocated then vs
  else
    let forbidden := sust ∪ ((vs.filter (fun v => decide (0 < v.volume))).map
      (fun v => v.midi_note)).toFinset
    alloc_loop pmap rolls choices (available - allocated) 0 vs forbidden

/-- FibrilAlgorithm._get_active_ranks (fibril-algorithms.py lines
    141-143): the ranks with non-zero density. -/
def get_active_ranks (s : SystemState) : List Rank :=
  s.ranks.filter (fun r => decide (0 < r.density))

/-- FibrilAlgorithm.allocate_voices (fibril-algorithms.py lines 111-139):
    the full pass.  When no rank is active every voice is silenced and the
    pass returns; otherwise sustain handling, rooted-note forcing, the
    budget min(48, total_density + number of sustained notes) and the
    sampling loop run in order. -/
def allocate_voices (s : SystemState) (pmap : List ℚ) (rolls : ℕ → ℚ) (choices : ℕ → ℕ) :
    SystemState :=
  let active_ranks := get_active_ranks s
  if active_ranks.isEmpty then
    { s with voices := s.voices.map (fun v => { v with volume := 0 }) }
  else
    let hs := handle_sustain s
    let s1 := hs.1
    let sustained_notes := hs.2
    let vs2 := ensure_rooted_notes s1.key_center sustained_notes active_ranks s1.voices
    let total_density := (active_ranks.map Rank.density).sum
    let available_voices := min 48 (total_density + sustained_notes.card)
    let vs3 := allocate_remaining_voices vs2 pmap sustained_notes available_voices rolls choices
    { s1 with voices := vs3 }

/-! ### Invariant I2 for the allocate_voices pass -/

/-- Invariant I2: two distinct sounding voices never share a MIDI note. -/
def SoundingDistinct (vs : List Voice) : Prop :=
  ∀ i < vs.length, ∀ j < vs.length, i ≠ j →
    0 < (vs.getD i default).volume → 0 < (vs.getD j default).volume →
    (vs.getD i default).midi_note ≠ (vs.getD j default).midi_note

/-- Boolean check of SoundingDistinct, used to evaluate the invariant on
    concrete states. -/
def sounding_distinct_dec (vs : List Voice) : Bool :=
  (List.range vs.length).all fun i =>
    (List.range vs.length).all fun j =>
      decide (i = j) || decide (¬ 0 < (vs.getD i default).volume) ||
      decide (¬ 0 < (vs.getD j default).volume) ||
      decide ((vs.getD i default).midi_note ≠ (vs.getD j default).midi_note)

theorem sounding_distinct_dec_iff (vs : List Voice) :
    sounding_distinct_dec vs = true ↔ SoundingDistinct vs := by
  unfold sounding_distinct_dec SoundingDistinct
  simp only [List.all_eq_true, List.mem_range, Bool.or_eq_true, decide_eq_true_eq]
  constructor
  · intro h i hi j hj hij hvi hvj
    rcases h i hi j hj with ((h1 | h1) | h1) | h1
    · exact absurd h1 hij
    · exact absurd hvi h1
    · exact absurd hvj h1
    · exact h1
  · intro h i hi j hj
    by_cases hij : i = j
    · exact Or.inl (Or.inl (Or.inl hij))
    · by_cases hvi : 0 < (vs.getD i default).volume
      · by_cases hvj : 0 < (vs.getD j default).volume
        · exact Or.inr (h i hi j hj hij hvi hvj)
        · exact Or.inl (Or.inr hvj)
      · exact Or.inl (Or.inl (Or.inr hvi))

instance (vs : List Voice) : Decidable (SoundingDistinct vs) :=
  decidable_of_iff _ (sounding_distinct_dec_iff vs)

/-- No sounding voice carries the MIDI value m. -/
def FreshMidi (vs : List Voice) (m : ℤ) : Prop :=
  ∀ i < vs.length, 0 < (vs.getD i default).volume → (vs.getD i default).midi_note ≠ m

/-- Every sounding MIDI value lies in the given forbidden set. -/
def SoundingIn (vs : List Voice) (forb : Finset ℤ) : Prop :=
  ∀ i < vs.length, 0 < (vs.getD i default).volume → (vs.getD i default).midi_note ∈ forb

theorem getD_set_lt {vs : List Voice} {k i : ℕ} (v : Voice) (h : i < vs.length) :
    (vs.set k v).getD i default = if k = i then v else vs.getD i default := by
  rw [List.getD_eq_getElem?_getD, List.getElem?_set]
  by_cases hk : k = i
  · subst hk
    rw [if_pos rfl, if_pos h]
    simp
  · rw [if_neg hk, ← List.getD_eq_getElem?_getD, if_neg hk]

theorem soundingDistinct_set (vs : List Voice) (k : ℕ) (v0 : Voice) (m : ℤ)
    (hd : SoundingDistinct vs) (hm : FreshMidi vs m) :
    SoundingDistinct (vs.set k { v0 with midi_note := m, volume := 1 }) := by
  intro i hi j hj hij hvi hvj
  rw [List.length_set] at hi hj
  rw [getD_set_lt _ hi] at hvi
  rw [getD_set_lt _ hj] at hvj
  rw [getD_set_lt _ hi, getD_set_lt _ hj]
  by_cases hki : k = i <;> by_cases hkj : k = j
  · exfalso; apply hij; omega
  · simp only [if_pos hki, if_neg hkj] at hvj ⊢
    exact (hm j hj hvj).symm
  · simp only [if_neg hki, if_pos hkj] at hvi ⊢
    exact hm i hi hvi
  · simp only [if_neg hki, if_neg hkj] at hvi hvj ⊢
    exact hd i hi j hj hij hvi hvj

theorem freshMidi_set (vs : List Voice) (k : ℕ) (v0 : Voice) (m m2 : ℤ)
    (hm : FreshMidi vs m2) (hne : m ≠ m2) :
    FreshMidi (vs.set k { v0 with midi_note := m, volume := 1 }) m2 := by
  intro i hi hvi
  rw [List.length_set] at hi
  rw [getD_set_lt _ hi] at hvi ⊢
  by_cases hk : k = i
  · simp only [if_pos hk]
    exact hne
  · simp only [if_neg hk] at hvi ⊢
    exact hm i hi hvi

theorem soundingIn_set (vs : List Voice) (k : ℕ) (v0 : Voice) (m : ℤ) (forb : Finset ℤ)
    (hs : SoundingIn vs forb) :
    SoundingIn (vs.set k { v0 with midi_note := m, volume := 1 }) (insert m forb) := by
  intro i hi hvi
  rw [List.length_set] at hi
  rw [getD_set_lt _ hi] at hvi ⊢
  by_cases hk : k = i
  · simp only [if_pos hk]
    exact Finset.mem_insert_self _ _
  · simp only [if_neg hk] at hvi ⊢
    exact Finset.mem_insert_of_mem (hs i hi hvi)

theorem freshMidi_of_soundingIn (vs : List Voice) (forb : Finset ℤ) (m : ℤ)
    (hs : SoundingIn vs forb) (hm : m ∉ forb) : FreshMidi vs m :=
  fun i hi hvi he => hm (he ▸ hs i hi hvi)

theorem pickFrom_mem :
    ∀ (l : List (ℕ × ℚ)) (rand acc : ℚ) (i : ℕ),
      pickFrom l rand acc = some i → i ∈ l.map Prod.fst := by
  intro l
  induction l with
  | nil => intro rand acc i h; simp [pickFrom] at h
  | cons p rest ih =>
    intro rand acc i h
    simp only [pickFrom] at h
    by_cases hle : rand ≤ acc + p.2
    · rw [if_pos hle] at h
      cases h
      simp
    · rw [if_neg hle] at h
      cases hpf : pickFrom rest rand (acc + p.2) with
      | some j =>
        rw [hpf] at h
        cases h
        exact List.mem_cons_of_mem _ (ih rand (acc + p.2) _ hpf)
      | none =>
        rw [hpf] at h
        cases h
        simp

theorem sample_mem_valid (pmap : List ℚ) (forbidden : Finset ℤ) (roll : ℚ) (choice : ℕ)
    (m : ℕ) (h : sample_from_probability_map pmap forbidden roll choice = some m) :
    ((m : ℤ) ∉ forbidden) ∧ m < pmap.length := by
  unfold sample_from_probability_map at h
  set valid := (List.range pmap.length).filter
    (fun (i : ℕ) => decide (((i : ℤ) ∉ forbidden)) && decide (0 < pmap.getD i 0)) with hvalid
  by_cases hnil : valid = []
  · rw [if_pos hnil] at h
    cases h
  · rw [if_neg hnil] at h
    have hmv : m ∈ valid := by
      by_cases htot : ((valid.map (fun i => (i, pmap.getD i 0))).map Prod.snd).sum = 0
      · rw [if_pos htot] at h
        cases h
        have hpos : 0 < valid.length := List.length_pos.mpr hnil
        have hlt : choice % valid.length < valid.length := Nat.mod_lt _ hpos
        rw [List.getD_eq_getElem _ _ hlt]
        exact List.getElem_mem hlt
      · rw [if_neg htot] at h
        have := pickFrom_mem _ _ _ _ h
        rw [List.map_map] at this
        simpa using this
    rw [hvalid, List.mem_filter] at hmv
    have hcond := hmv.2
    simp only [Bool.and_eq_true, decide_eq_true_eq] at hcond
    exact ⟨hcond.1, List.mem_range.mp hmv.1⟩

theorem alloc_loop_sounding_distinct (pmap : List ℚ) (rolls : ℕ → ℚ) (choices : ℕ → ℕ) :
    ∀ (n t : ℕ) (vs : List Voice) (forb : Finset ℤ),
      SoundingDistinct vs → SoundingIn vs forb →
      SoundingDistinct (alloc_loop pmap rolls choices n t vs forb) := by
  intro n
  induction n with
  | zero => intro t vs forb hd _; exact hd
  | succ n ih =>
    intro t vs forb hd hs
    simp only [alloc_loop]
    cases hsample : sample_from_probability_map pmap forb (rolls t) (choices t) with
    | none => exact ih _ _ _ hd hs
    | some m =>
      have hnf := sample_mem_valid pmap forb (rolls t) (choices t) m hsample
      have hfresh := freshMidi_of_soundingIn vs forb ((m : ℤ)) hs hnf.1
      exact ih _ _ _ (soundingDistinct_set vs _ _ _ hd hfresh) (soundingIn_set vs _ _ _ _ hs)

theorem allocate_remaining_sounding_distinct (vs : List Voice) (pmap : List ℚ)
    (sust : Finset ℤ) (available : ℕ) (rolls : ℕ → ℚ) (choices : ℕ → ℕ)
    (hd : SoundingDistinct vs) :
    SoundingDistinct (allocate_remaining_voices vs pmap sust available rolls choices) := by
  unfold allocate_remaining_voices
  dsimp only
  split
  · exact hd
  · apply alloc_loop_sounding_distinct pmap rolls choices _ _ vs _ hd
    intro i hi hvi
    apply Finset.mem_union_right
    rw [List.mem_toFinset]
    refine List.mem_map.mpr ⟨vs.getD i default, ?_, rfl⟩
    rw [List.mem_filter]
    refine ⟨?_, ?_⟩
    · rw [List.getD_eq_getElem _ _ hi]
      exact List.getElem_mem hi
    · simp only [decide_eq_true_eq]
      exact hvi

theorem get_rank_root_bounds (rank : Rank) (kc : ℤ) :
    0 ≤ get_rank_root rank kc ∧ get_rank_root rank kc < 12 := by
  unfold get_rank_root
  omega

theorem pc_present_false_fresh (vs : List Voice) (pc : ℤ) (hpc0 : 0 ≤ pc) (hpc12 : pc < 12)
    (h : pc_present vs pc = false) (b : ℤ) : FreshMidi vs (pc + b * 12) := by
  intro i hi hvi he
  rw [pc_present, List.any_eq_false] at h
  have hmem : vs.getD i default ∈ vs := by
    rw [List.getD_eq_getElem _ _ hi]
    exact List.getElem_mem hi
  have hcond := h _ hmem
  simp only [Bool.and_eq_true, decide_eq_true_eq, not_and] at hcond
  apply hcond hvi
  rw [he]
  omega

theorem pc_present_false_of_check (sust : Finset ℤ) (vs : List Voice) (pc : ℤ)
    (h : root_present_check sust vs pc = false) : pc_present vs pc = false := by
  rw [root_present_check, List.any_eq_false] at h
  have h0 := h 0 (List.mem_range.mpr (by norm_num))
  simp only [Bool.or_eq_true, not_or] at h0
  exact Bool.not_eq_true _ ▸ (Bool.eq_false_iff.mpr h0.2)

theorem ensure_rooted_step_sounding_distinct (kc : ℤ) (sust : Finset ℤ) (vs : List Voice)
    (rank : Rank) (hd : SoundingDistinct vs) :
    SoundingDistinct (ensure_rooted_step kc sust vs rank) := by
  unfold ensure_rooted_step force_allocate_note
  have hr := get_rank_root_bounds rank kc
  have hf0 : 0 ≤ (get_rank_root rank kc + 7) % 12 := by omega
  have hf12 : (get_rank_root rank kc + 7) % 12 < 12 := by omega
  by_cases hrp : root_present_check sust vs (get_rank_root rank kc)
    <;> by_cases hfp : root_present_check sust vs ((get_rank_root rank kc + 7) % 12)
  · simp only [if_pos hrp, if_pos hfp]
    exact hd
  · simp only [if_pos hrp, if_neg hfp]
    apply soundingDistinct_set _ _ _ _ hd
    exact pc_present_false_fresh vs _ hf0 hf12
      (pc_present_false_of_check _ _ _ (Bool.eq_false_iff.mpr hfp)) _
  · simp only [if_neg hrp, if_pos hfp]
    apply soundingDistinct_set _ _ _ _ hd
    exact pc_present_false_fresh vs _ hr.1 hr.2
      (pc_present_false_of_check _ _ _ (Bool.eq_false_iff.mpr hrp)) _
  · simp only [if_neg hrp, if_neg hfp]
    have hd1 : SoundingDistinct (vs.set (find_or_steal_voice vs)
        { vs.getD (find_or_steal_voice vs) default with
            midi_note := get_rank_root rank kc +
              choose_optimal_octave (get_rank_root rank kc) rank.position * 12,
            volume := 1 }) := by
      apply soundingDistinct_set _ _ _ _ hd
      exact pc_present_false_fresh vs _ hr.1 hr.2
        (pc_present_false_of_check _ _ _ (Bool.eq_false_iff.mpr hrp)) _
    apply soundingDistinct_set _ _ _ _ hd1
    apply freshMidi_set
    · exact pc_present_false_fresh vs _ hf0 hf12
        (pc_present_false_of_check _ _ _ (Bool.eq_false_iff.mpr hfp)) _
    · omega

theorem ensure_rooted_notes_sounding_distinct (kc : ℤ) (sust : Finset ℤ) :
    ∀ (ranks : List Rank) (vs : List Voice), SoundingDistinct vs →
      SoundingDistinct (ensure_rooted_notes kc sust ranks vs) := by
  intro ranks
  induction ranks with
  | nil => intro vs hd; exact hd
  | cons r rs ih =>
    intro vs hd
    exact ih _ (ensure_rooted_step_sounding_distinct kc sust vs r hd)

theorem handle_sustain_fst (s : SystemState) (h : s.voices.length ≤ 48) :
    (handle_sustain s).1 = s := by
  unfold handle_sustain
  by_cases hsus : s.sustain
  · simp only [if_pos hsus]
    have hlen : ((s.voices.enum.filter (fun p => decide (0 < p.2.volume))).map
        (fun p => (p.2.midi_note, p.1))).length ≤ 48 := by
      rw [List.length_map]
      calc (s.voices.enum.filter (fun p => decide (0 < p.2.volume))).length
          ≤ s.voices.enum.length := List.length_filter_le _ _
        _ = s.voices.length := List.enum_length
        _ ≤ 48 := h
    rw [if_neg (by omega)]
  · simp only [if_neg hsus]

theorem soundingDistinct_silenced (vs : List Voice) :
    SoundingDistinct (vs.map (fun v => { v with volume := 0 })) := by
  intro i hi j hj hij hvi
  exfalso
  rw [List.length_map] at hi
  rw [List.getD_eq_getElem _ _ (by simpa using hi), List.getElem_map] at hvi
  simp at hvi

/-- C1: the allocate_voices pass preserves invariant I2.  If the incoming
    state has pairwise distinct MIDI notes among its sounding voices (as
    every reachable state does: voices start silent and only this pass
    writes them), then so does the state it returns; hence at every tick
    boundary any two voices with positive volume carry different MIDI
    values. -/
theorem allocate_voices_sounding_distinct (s : SystemState) (pmap : List ℚ)
    (rolls : ℕ → ℚ) (choices : ℕ → ℕ) (h48 : s.voices.length ≤ 48)
    (hd : SoundingDistinct s.voices) :
    SoundingDistinct (allocate_voices s pmap rolls choices).voices := by
  unfold allocate_voices
  by_cases hempty : (get_active_ranks s).isEmpty
  · simp only [if_pos hempty]
    exact soundingDistinct_silenced _
  · simp only [if_neg hempty]
    have h1 := handle_sustain_fst s h48
    rw [h1]
    exact allocate_remaining_sounding_distinct _ _ _ _ _ _
      (ensure_rooted_notes_sounding_distinct _ _ _ _ hd)

/-- Concrete state exercising the allocator: one active rank of density 2
    and two sounding voices with distinct MIDI notes. -/
def c1ProbeState : SystemState :=
  { sustain := false, previous_sustain := false, key_center := 60,
    ranks := [{ number := 3, position := 1, grey_code := [0, 1, 0, 0], gci := 7,
                density := 2, tonicization := 1, previous_gci := 0 }],
    voices := [{ midi_note := 60, volume := 1, id := 1, sustained := false },
               { midi_note := 64, volume := 1, id := 2, sustained := false },
               { midi_note := 0, volume := 0, id := 3, sustained := false }],
    frozen_voices := [] }

/-- C1 witness: the preservation theorem applied to a concrete state with
    the hypotheses checked by evaluation. -/
theorem allocate_voices_sounding_distinct_witness :
    c1ProbeState.voices.length ≤ 48 ∧ SoundingDistinct c1ProbeState.voices ∧
      SoundingDistinct (allocate_voices c1ProbeState (List.replicate 128 1)
        (fun _ => 1/2) (fun _ => 0)).voices :=
  ⟨by decide, by decide,
    allocate_voices_sounding_distinct c1ProbeState (List.replicate 128 1)
      (fun _ => 1/2) (fun _ => 0) (by decide) (by decide)⟩

/-- Total density over the active ranks, as summed on line 130. -/
def total_density_of (s : SystemState) : ℕ :=
  ((get_active_ranks s).map Rank.density).sum

/-- The voice budget the source pass computes (fibril-algorithms.py lines
    129-131): min(48, total_density + number of sustained notes). -/
def available_code (s : SystemState) : ℕ :=
  min 48 (total_density_of s + (handle_sustain s).2.card)

/-- The voice budget in the words of the spec (section 4.5.1 step 4):
    available = min(48 - number of frozen voices, total_density).  Stated
    for the refinement comparison with available_code. -/
def available_spec (s : SystemState) : ℕ :=
  min (48 - s.frozen_voices.length) (total_density_of s)

/-- Replace the voices field of a state; used to phrase pass equations. -/
def with_voices (s : SystemState) (vs : List Voice) : SystemState :=
  { s with voices := vs }

/-- C5 (amended): the voice budget allocate_voices feeds into the sampling
    step is min(48, total_density + number of sustained notes), the value
    of available_code, not the spec formula min(48 - frozen, total_density):
    on a state with at least one active rank the pass is exactly sustain
    handling, rooted-note forcing, and the sampling step run with the
    available_code budget. -/
theorem allocate_voices_budget_formula (s : SystemState) (pmap : List ℚ)
    (rolls : ℕ → ℚ) (choices : ℕ → ℕ) (h : get_active_ranks s ≠ []) :
    allocate_voices s pmap rolls choices =
      with_voices (handle_sustain s).1
        (allocate_remaining_voices
          (ensure_rooted_notes (handle_sustain s).1.key_center (handle_sustain s).2
            (get_active_ranks s) (handle_sustain s).1.voices)
          pmap (handle_sustain s).2 (available_code s) rolls choices) := by
  unfold allocate_voices available_code total_density_of with_voices
  rw [if_neg (by simpa [List.isEmpty_iff] using h)]

/-- State with five sounding, sustained, frozen voices and two ranks of
    density 6 each, used to separate the code budget from the spec
    budget. -/
def c5_state : SystemState :=
  { sustain := true, previous_sustain := true, key_center := 60,
    ranks := [{ number := 1, position := 1, grey_code := [1, 1, 1, 1], gci := 10,
                density := 6, tonicization := 1, previous_gci := 0 },
              { number := 2, position := 2, grey_code := [1, 1, 1, 1], gci := 10,
                density := 6, tonicization := 2, previous_gci := 0 }],
    voices := (List.range 48).map fun (i : ℕ) =>
      { midi_note := 60 + (i : ℤ), volume := if i < 5 then 1 else 0,
        id := i + 1, sustained := decide (i < 5) },
    frozen_voices := [(1, 60), (2, 61), (3, 62), (4, 63), (5, 64)] }

/-- C5 counterexample: on c5_state the pass budget available_code is
    min(48, 12 + 5) = 17, while the claimed formula
    min(48 - frozen, total_density) gives min(43, 12) = 12. -/
theorem available_code_ne_available_spec :
    available_code c5_state = 17 ∧ available_spec c5_state = 12 ∧
      available_code c5_state ≠ available_spec c5_state := by
  refine ⟨by decide, by decide, by decide⟩

/-- C5 witness: the budget decomposition applied to the concrete state
    c5_state. -/
theorem allocate_voices_budget_formula_witness :
    allocate_voices c5_state (List.replicate 128 1) (fun _ => 1/2) (fun _ => 0) =
      with_voices (handle_sustain c5_state).1
        (allocate_remaining_voices
          (ensure_rooted_notes (handle_sustain c5_state).1.key_center
            (handle_sustain c5_state).2 (get_active_ranks c5_state)
            (handle_sustain c5_state).1.voices)
          (List.replicate 128 1) (handle_sustain c5_state).2 (available_code c5_state)
          (fun _ => 1/2) (fun _ => 0)) :=
  allocate_voices_budget_formula c5_state (List.replicate 128 1) (fun _ => 1/2)
    (fun _ => 0) (by decide)

/-- C6 (amended): when every rank has density 0, allocate_voices silences
    every voice - the frozen and sustained ones included - leaves every
    other field unchanged, and returns without allocating. -/
theorem allocate_voices_zero_density_silences_all (s : SystemState) (pmap : List ℚ)
    (rolls : ℕ → ℚ) (choices : ℕ → ℕ) (h : ∀ r ∈ s.ranks, r.density = 0) :
    allocate_voices s pmap rolls choices =
      { s with voices := s.voices.map (fun v => { v with volume := 0 }) } := by
  unfold allocate_voices
  rw [if_pos]
  rw [List.isEmpty_iff]
  unfold get_active_ranks
  rw [List.filter_eq_nil_iff]
  intro r hr
  simp [h r hr]

/-- State with all ranks at density 0 and one sounding frozen voice. -/
def c6_state : SystemState :=
  { sustain := true, previous_sustain := true, key_center := 60,
    ranks := [{ number := 1, position := 1, grey_code := [0, 0, 0, 0], gci := 0,
                density := 0, tonicization := 1, previous_gci := 0 }],
    voices := [{ midi_note := 60, volume := 1, id := 1, sustained := true }],
    frozen_voices := [(1, 60)] }

/-- C6 counterexample: on c6_state, whose only voice is sounding and frozen
    (it appears in frozen_voices), the zero-density pass sets its volume to
    0 - the code silences frozen voices as well, against the claim that
    they are left sounding. -/
theorem zero_density_silences_frozen_voice :
    c6_state.frozen_voices = [(1, 60)] ∧
      0 < (c6_state.voices.getD 0 default).volume ∧
      ((allocate_voices c6_state [] (fun _ => 0) (fun _ => 0)).voices.getD 0
          default).volume = 0 := by
  refine ⟨by decide, by decide, by decide⟩

/-- C6 witness: the amended zero-density behaviour at the concrete state
    c6_state. -/
theorem allocate_voices_zero_density_silences_all_witness :
    allocate_voices c6_state [] (fun _ => 0) (fun _ => 0) =
      { c6_state with voices := c6_state.voices.map (fun v => { v with volume := 0 }) } :=
  allocate_voices_zero_density_silences_all c6_state [] (fun _ => 0) (fun _ => 0)
    (by decide)

/-- C9: allocate_voice_safely is atomic.  It returns False and leaves the
    voices unchanged when the voice id is missing or out of 1..48, the MIDI
    value is out of 0..127, the target voice is sustained, or the MIDI value
    already sounds on a non-sustained voice; otherwise it returns True and
    rewrites exactly the target voice (midi_note to the request, volume to
    1, sustained to False), leaving every other voice unchanged. -/
theorem allocate_voice_safely_atomic (voices : List Voice) (voice_id : Option ℤ) (m : ℤ) :
    ((allocate_voice_safely voices voice_id m).1 = false →
      (allocate_voice_safely voices voice_id m).2 = voices) ∧
    (voice_id = none → (allocate_voice_safely voices voice_id m).1 = false) ∧
    (∀ v, voice_id = some v →
      (¬ (1 ≤ v ∧ v ≤ 48) ∨ ¬ (0 ≤ m ∧ m ≤ 127) ∨
        (voices.getD (v - 1).toNat default).sustained = true ∨
        m ∈ get_active_midi_notes voices) →
      (allocate_voice_safely voices voice_id m).1 = false) ∧
    (∀ v, voice_id = some v → 1 ≤ v → v ≤ 48 → 0 ≤ m → m ≤ 127 →
      (voices.getD (v - 1).toNat default).sustained = false →
      m ∉ get_active_midi_notes voices →
      allocate_voice_safely voices voice_id m =
        (true, voices.set (v - 1).toNat
          { voices.getD (v - 1).toNat default with
              midi_note := m, volume := 1, sustained := false })) ∧
    (∀ v, voice_id = some v → (allocate_voice_safely voices voice_id m).1 = true →
      ∀ j, j ≠ (v - 1).toNat →
        ((allocate_voice_safely voices voice_id m).2).getD j default =
          voices.getD j default) := by
  cases voice_id with
  | none =>
    refine ⟨fun _ => rfl, fun _ => rfl, ?_, ?_, ?_⟩
    · intro v hv; cases hv
    · intro v hv; cases hv
    · intro v hv; cases hv
  | some vid =>
    simp only [allocate_voice_safely]
    by_cases h1 : ¬ (1 ≤ vid ∧ vid ≤ 48)
    · rw [if_pos h1]
      refine ⟨fun _ => rfl, fun _ => rfl, fun v hv _ => rfl, ?_, ?_⟩
      · intro v hv hv1 hv2 _ _ _ _
        cases hv
        exact absurd ⟨hv1, hv2⟩ h1
      · intro v hv hfalse
        simp at hfalse
    · rw [if_neg h1]
      by_cases h2 : ¬ (0 ≤ m ∧ m ≤ 127)
      · rw [if_pos h2]
        refine ⟨fun _ => rfl, fun _ => rfl, fun v hv _ => rfl, ?_, ?_⟩
        · intro v hv _ _ hm1 hm2 _ _
          cases hv
          exact absurd ⟨hm1, hm2⟩ h2
        · intro v hv hfalse
          simp at hfalse
      · rw [if_neg h2]
        by_cases h3 : (voices.getD (vid - 1).toNat default).sustained
        · rw [if_pos h3]
          refine ⟨fun _ => rfl, fun _ => rfl, fun v hv _ => rfl, ?_, ?_⟩
          · intro v hv _ _ _ _ hsus _
            cases hv
            rw [h3] at hsus
            cases hsus
          · intro v hv hfalse
            simp at hfalse
        · rw [if_neg h3]
          by_cases h4 : m ∈ get_active_midi_notes voices
          · rw [if_pos h4]
            refine ⟨fun _ => rfl, fun _ => rfl, fun v hv _ => rfl, ?_, ?_⟩
            · intro v hv _ _ _ _ _ hmem
              cases hv
              exact absurd h4 hmem
            · intro v hv hfalse
              simp at hfalse
          · rw [if_neg h4]
            refine ⟨?_, ?_, ?_, ?_, ?_⟩
            · intro hfalse; simp at hfalse
            · intro h; simp at h
            · intro v hv hdisj
              cases hv
              rcases hdisj with hd | hd | hd | hd
              · exact absurd (not_not.mp h1) hd
              · exact absurd (not_not.mp h2) hd
              · rw [hd] at h3; exact absurd rfl h3
              · exact absurd hd h4
            · intro v hv _ _ _ _ _ _
              cases hv
              rfl
            · intro v hv _ j hj
              cases hv
              simp only
              rw [List.getD_eq_getElem?_getD, List.getD_eq_getElem?_getD,
                List.getElem?_set_ne (by omega : (vid - 1).toNat ≠ j)]
              rw [List.getD_eq_getElem?_getD]

/-- Concrete two-voice pool used to exercise allocate_voice_safely. -/
def avsProbeVoices : List Voice :=
  [{ midi_note := 60, volume := 1, id := 1, sustained := false },
   { midi_note := 0, volume := 0, id := 2, sustained := false }]

/-- C9 witness: a successful allocation on a concrete pool takes the
    success path of allocate_voice_safely_atomic. -/
theorem allocate_voice_safely_atomic_witness :
    allocate_voice_safely avsProbeVoices (some 2) 72 =
      (true, avsProbeVoices.set ((2 : ℤ) - 1).toNat
        { avsProbeVoices.getD ((2 : ℤ) - 1).toNat default with
            midi_note := 72, volume := 1, sustained := false }) :=
  (allocate_voice_safely_atomic avsProbeVoices (some 2) 72).2.2.2.1 2 rfl
    (by decide) (by decide) (by decide) (by decide) (by decide) (by decide)

/-! ## The sustain freeze machine and the allocator contract, modelled from
the spec

The frozen-voice sustain machine that spec sections 4.5 and 4.6 describe -
the one fibril_main.py imports as FibrilAlgorithm from fibril_algorithms
and that test_corrected_sustain.py, test_improved_sustain.py and
test_no_duplicates.py exercise through SystemState.frozen_voices - is not
present in the source tree: fibril_algorithms.py defines no FibrilAlgorithm
class and no code under src writes frozen_voices or the per-voice sustained
flag.  The definitions below are therefore modelled from the specification
text and marked as such. -/

/-- Modelled from the spec: a voice is frozen when its id appears in
    frozen_voices (section 4.6 contract). -/
def isFrozen (fr : List (ℕ × ℤ)) (v : Voice) : Bool :=
  fr.any (fun p => decide (p.1 = v.id))

/-- Modelled from the spec: a MIDI value is already frozen when some
    frozen_voices entry carries it (uniqueness by midi_note). -/
def hasFrozenMidi (fr : List (ℕ × ℤ)) (m : ℤ) : Bool :=
  fr.any (fun p => decide (p.2 = m))

/-- Modelled from the spec (section 4.6, rising edge): walk the voices in
    order, snapshot every sounding voice whose MIDI value is not yet frozen
    into the accumulator and mark it sustained; with duplicate MIDI values
    only the first encountered voice is frozen. -/
def freeze_snapshot : List Voice → List (ℕ × ℤ) → List Voice × List (ℕ × ℤ)
  | [], acc => ([], acc)
  | v :: rest, acc =>
    if 0 < v.volume ∧ hasFrozenMidi acc v.midi_note = false then
      let r := freeze_snapshot rest (acc ++ [(v.id, v.midi_note)])
      ({ v with sustained := true } :: r.1, r.2)
    else
      let r := freeze_snapshot rest acc
      (v :: r.1, r.2)

/-- Modelled from the spec (section 4.6): the sustain machine transition on
    (previous_sustain, sustain).  Rising edge snapshots the sounding voices
    into frozen_voices; falling edge clears frozen_voices and the sustained
    flags; the other two transitions only refresh previous_sustain. -/
def handle_sustain_spec (s : SystemState) : SystemState :=
  if s.sustain = true ∧ s.previous_sustain = false then
    let r := freeze_snapshot s.voices []
    { s with voices := r.1, frozen_voices := r.2, previous_sustain := s.sustain }
  else if s.sustain = false ∧ s.previous_sustain = true then
    { s with voices := s.voices.map (fun v => { v with sustained := false }),
             frozen_voices := [], previous_sustain := s.sustain }
  else
    { s with previous_sustain := s.sustain }

/-- Modelled from the spec (section 4.5.6 step 1): index of the first
    silent non-frozen voice among the given indices. -/
def find_silent_idx (fr : List (ℕ × ℤ)) (vs : List Voice) : List ℕ → Option ℕ
  | [] => none
  | j :: rest =>
    let v := vs.getD j default
    if v.volume = 0 ∧ isFrozen fr v = false then some j
    else find_silent_idx fr vs rest

/-- Modelled from the spec (sections 4.5.1 step 5 and 4.5.6 step 2): scan
    for the sounding non-frozen voice with the highest MIDI note, ties to
    the highest index. -/
def max_midi_scan (fr : List (ℕ × ℤ)) (vs : List Voice) : List ℕ → Option ℕ → Option ℕ
  | [], acc => acc
  | j :: rest, acc =>
    let v := vs.getD j default
    if 0 < v.volume ∧ isFrozen fr v = false then
      match acc with
      | none => max_midi_scan fr vs rest (some j)
      | some k =>
        if (vs.getD k default).midi_note ≤ v.midi_note then max_midi_scan fr vs rest (some j)
        else max_midi_scan fr vs rest (some k)
    else max_midi_scan fr vs rest acc

/-- Modelled from the spec (section 4.5.6): placement target - the lowest
    silent non-frozen voice, else the highest-pitched sounding non-frozen
    voice, never a frozen voice, none when all 48 are frozen. -/
def find_target_spec (fr : List (ℕ × ℤ)) (vs : List Voice) : Option ℕ :=
  match find_silent_idx fr vs (List.range vs.length) with
  | some j => some j
  | none => max_midi_scan fr vs (List.range vs.length) none

/-- Modelled from the spec (sections 4.5.1 step 8 and 4.6 HELD to HELD):
    place the MIDI value on the target voice; while sustain is held the new
    allocation is additionally frozen and marked sustained unless its MIDI
    value is already frozen. -/
def place_voice_spec (held : Bool) (vs : List Voice) (fr : List (ℕ × ℤ)) (m : ℤ) :
    List Voice × List (ℕ × ℤ) :=
  match find_target_spec fr vs with
  | none => (vs, fr)
  | some j =>
    let v := vs.getD j default
    if held = true ∧ hasFrozenMidi fr m = false then
      (vs.set j { v with midi_note := m, volume := 1, sustained := true }, fr ++ [(v.id, m)])
    else
      (vs.set j { v with midi_note := m, volume := 1, sustained := false }, fr)

/-- Modelled from the spec: the number of sounding non-frozen voices. -/
def non_frozen_sounding_count (fr : List (ℕ × ℤ)) (vs : List Voice) : ℕ :=
  (vs.filter (fun v => decide (0 < v.volume) && !(isFrozen fr v))).length

/-- Modelled from the spec (section 4.5.1 step 5): silence the
    highest-pitched sounding non-frozen voice. -/
def evict_once (fr : List (ℕ × ℤ)) (vs : List Voice) : List Voice :=
  match max_midi_scan fr vs (List.range vs.length) none with
  | none => vs
  | some j => vs.set j { vs.getD j default with volume := 0 }

/-- Modelled from the spec: repeat the single eviction the given number of
    times (the excess over the budget). -/
def evict_loop (fr : List (ℕ × ℤ)) : ℕ → List Voice → List Voice
  | 0, vs => vs
  | n + 1, vs => evict_loop fr n (evict_once fr vs)

/-- Modelled from the spec (section 4.5.2): major-scale offset of a scale
    degree. -/
def spec_degree_offset (t : ℕ) : ℤ :=
  match t with
  | 1 => 0 | 2 => 2 | 3 => 4 | 4 => 5 | 5 => 7 | 6 => 9 | 7 => 11 | 8 => 0
  | _ => 0

/-- Modelled from the spec (section 4.5.2): the rank tonic pitch class;
    tonicization 9 is the subtonic/whole-tone variant at the tritone. -/
def rank_tonic_pc (kc : ℤ) (t : ℕ) : ℤ :=
  if t = 9 then (kc % 12 + 6) % 12 else (kc % 12 + spec_degree_offset t) % 12

/-- Modelled from the spec (section 4.5.3): octave preference for forced
    notes, base_octave = 4 + floor(((8 - priority)/8) * 2). -/
def base_octave_spec (priority : ℕ) : ℤ :=
  4 + Int.fdiv ((8 - (priority : ℤ)) * 2) 8

/-- Modelled from the spec (section 4.5.1 step 6): if neither the rank root
    nor its perfect fifth sounds, force-allocate the root pitch class at the
    priority octave, clamped into MIDI range, never on a frozen voice. -/
def ensure_rooted_step_spec (kc : ℤ) (held : Bool) (st : List Voice × List (ℕ × ℤ))
    (rank : Rank) : List Voice × List (ℕ × ℤ) :=
  let pc := rank_tonic_pc kc rank.tonicization
  let fifth := (pc + 7) % 12
  if st.1.any (fun v => decide (0 < v.volume) &&
      (decide (v.midi_note % 12 = pc) || decide (v.midi_note % 12 = fifth))) then st
  else
    let target := pc + base_octave_spec rank.position * 12
    place_voice_spec held st.1 st.2 (max 0 (min 127 target))

/-- Modelled from the spec: the rooted-note pass over the active ranks. -/
def ensure_rooted_spec (kc : ℤ) (held : Bool) (ranks : List Rank)
    (st : List Voice × List (ℕ × ℤ)) : List Voice × List (ℕ × ℤ) :=
  ranks.foldl (ensure_rooted_step_spec kc held) st

/-- Modelled from the spec (sections 4.5.1 step 8 and 4.5.5): sample
    without replacement, forbidding the sounding and the frozen MIDI
    values, placing each draw, until the budget of sounding non-frozen
    voices is met or the residual is empty. -/
def alloc_loop_spec (pmap : List ℚ) (rolls : ℕ → ℚ) (choices : ℕ → ℕ) (held : Bool)
    (available : ℕ) : ℕ → ℕ → List Voice × List (ℕ × ℤ) → List Voice × List (ℕ × ℤ)
  | 0, _, st => st
  | n + 1, t, st =>
    if available ≤ non_frozen_sounding_count st.2 st.1 then st
    else
      let forbidden := ((st.1.filter (fun v => decide (0 < v.volume))).map
        (fun v => v.midi_note)).toFinset ∪ (st.2.map Prod.snd).toFinset
      match sample_from_probability_map pmap forbidden (rolls t) (choices t) with
      | none => st
      | some m => alloc_loop_spec pmap rolls choices held available n (t + 1)
          (place_voice_spec held st.1 st.2 ((m : ℤ)))

/-- Modelled from the spec (section 4.5.1, steps 2 to 8): the allocator
    pass after the sustain machine - the no-active-rank silencing of the
    non-frozen voices, the budget min(48 - frozen, total_density), eviction
    of the excess, rooted notes, and the sampling loop.  The probability
    map construction of section 4.5.4 is floating-point in nature and
    enters as the pmap argument. -/
def allocate_pass_spec (s1 : SystemState) (pmap : List ℚ) (rolls : ℕ → ℚ)
    (choices : ℕ → ℕ) : SystemState :=
  let fr := s1.frozen_voices
  let active_ranks := s1.ranks.filter (fun r => decide (0 < r.density))
  if active_ranks.isEmpty then
    { s1 with voices := (s1.voices.map
        (fun v => if isFrozen fr v then v else { v with volume := 0 })) }
  else
    let total_density := (active_ranks.map Rank.density).sum
    let available := min (48 - fr.length) total_density
    let vs1 := evict_loop fr (non_frozen_sounding_count fr s1.voices - available) s1.voices
    let st2 := ensure_rooted_spec s1.key_center s1.sustain active_ranks (vs1, fr)
    let st3 := alloc_loop_spec pmap rolls choices s1.sustain available available 0 st2
    { s1 with voices := st3.1, frozen_voices := st3.2 }

/-- Modelled from the spec: a tick is the sustain machine followed by the
    allocator pass. -/
def allocate_voices_spec (s : SystemState) (pmap : List ℚ) (rolls : ℕ → ℚ)
    (choices : ℕ → ℕ) : SystemState :=
  allocate_pass_spec (handle_sustain_spec s) pmap rolls choices

/-! ### The rising edge (C2) -/

/-- Invariant I2 in list form: the MIDI values of the sounding voices, in
    order, contain no duplicate. -/
def SoundingMidisNodup (vs : List Voice) : Prop :=
  ((vs.filter (fun v => decide (0 < v.volume))).map (fun v => v.midi_note)).Nodup

instance (vs : List Voice) : Decidable (SoundingMidisNodup vs) := by
  unfold SoundingMidisNodup
  exact List.nodupDecidable _

theorem freeze_snapshot_closed :
    ∀ (l : List Voice) (acc : List (ℕ × ℤ)),
      (∀ v ∈ l, 0 < v.volume → hasFrozenMidi acc v.midi_note = false) →
      SoundingMidisNodup l →
      freeze_snapshot l acc =
        (l.map (fun v => if 0 < v.volume then { v with sustained := true } else v),
         acc ++ (l.filter (fun v => decide (0 < v.volume))).map
           (fun v => (v.id, v.midi_note))) := by
  intro l
  induction l with
  | nil => intro acc _ _; simp [freeze_snapshot]
  | cons v rest ih =>
    intro acc hacc hnd
    have hfilterPos : 0 < v.volume →
        (v :: rest).filter (fun w => decide (0 < w.volume)) =
          v :: rest.filter (fun w => decide (0 < w.volume)) :=
      fun hv => List.filter_cons_of_pos (by simpa using hv)
    by_cases hv : 0 < v.volume
    · have hguard : hasFrozenMidi acc v.midi_note = false :=
        hacc v (List.mem_cons_self v rest) hv
      have hndc : v.midi_note ∉ (rest.filter (fun w => decide (0 < w.volume))).map
            (fun w => w.midi_note) ∧ SoundingMidisNodup rest := by
        unfold SoundingMidisNodup at hnd ⊢
        rw [hfilterPos hv, List.map_cons, List.nodup_cons] at hnd
        exact hnd
      have hacc2 : ∀ w ∈ rest, 0 < w.volume →
          hasFrozenMidi (acc ++ [(v.id, v.midi_note)]) w.midi_note = false := by
        intro w hw hwv
        have h1 : hasFrozenMidi acc w.midi_note = false :=
          hacc w (List.mem_cons_of_mem v hw) hwv
        have hne : v.midi_note ≠ w.midi_note := by
          intro he
          apply hndc.1
          rw [he]
          exact List.mem_map.mpr ⟨w, List.mem_filter.mpr ⟨hw, by simpa using hwv⟩, rfl⟩
        unfold hasFrozenMidi at h1 ⊢
        rw [List.any_append, h1]
        simp [hne]
      rw [freeze_snapshot, if_pos ⟨hv, hguard⟩, ih (acc ++ [(v.id, v.midi_note)]) hacc2 hndc.2]
      rw [Prod.mk.injEq]
      constructor
      · rw [List.map_cons, if_pos hv]
      · rw [hfilterPos hv, List.map_cons, List.append_assoc, List.singleton_append]
    · have hacc2 : ∀ w ∈ rest, 0 < w.volume →
          hasFrozenMidi acc w.midi_note = false :=
        fun w hw hwv => hacc w (List.mem_cons_of_mem v hw) hwv
      have hnd2 : SoundingMidisNodup rest := by
        unfold SoundingMidisNodup at hnd ⊢
        rwa [List.filter_cons_of_neg (by simpa using hv)] at hnd
      rw [freeze_snapshot, if_neg (fun hc => hv hc.1), ih acc hacc2 hnd2]
      rw [Prod.mk.injEq]
      constructor
      · rw [List.map_cons, if_neg hv]
      · rw [List.filter_cons_of_neg (by simpa using hv)]

/-- C2: on a sustain rising edge the machine snapshots exactly the
    sounding voices, in order, as (voice_id, midi_note) pairs built from
    their current MIDI values; the frozen MIDI values are pairwise
    distinct; every sounding voice is marked sustained (the silent ones
    unchanged), every sounding voice appears in frozen_voices, and every
    frozen entry comes from a sounding voice. -/
theorem handle_sustain_spec_rising (s : SystemState) (hsus : s.sustain = true)
    (hprev : s.previous_sustain = false) (hnd : SoundingMidisNodup s.voices) :
    (handle_sustain_spec s).frozen_voices =
        (s.voices.filter (fun v => decide (0 < v.volume))).map
          (fun v => (v.id, v.midi_note)) ∧
    (handle_sustain_spec s).voices =
        s.voices.map (fun v => if 0 < v.volume then { v with sustained := true } else v) ∧
    ((handle_sustain_spec s).frozen_voices.map Prod.snd).Nodup ∧
    (∀ v ∈ s.voices, 0 < v.volume →
        (v.id, v.midi_note) ∈ (handle_sustain_spec s).frozen_voices) ∧
    (∀ p ∈ (handle_sustain_spec s).frozen_voices,
        ∃ v ∈ s.voices, 0 < v.volume ∧ p = (v.id, v.midi_note)) := by
  have hclosed := freeze_snapshot_closed s.voices [] (by intro v _ _; rfl) hnd
  have hstate : handle_sustain_spec s =
      { s with voices := (freeze_snapshot s.voices []).1,
               frozen_voices := (freeze_snapshot s.voices []).2,
               previous_sustain := s.sustain } := by
    unfold handle_sustain_spec
    rw [if_pos ⟨hsus, hprev⟩]
  rw [hstate, hclosed]
  refine ⟨by simp, rfl, ?_, ?_, ?_⟩
  · simp only [List.nil_append, List.map_map]
    have : (Prod.snd ∘ fun v : Voice => (v.id, v.midi_note)) = fun v : Voice => v.midi_note :=
      rfl
    rw [this]
    exact hnd
  · intro v hv hvol
    simp only [List.nil_append]
    exact List.mem_map.mpr ⟨v, List.mem_filter.mpr ⟨hv, by simpa using hvol⟩, rfl⟩
  · intro p hp
    simp only [List.nil_append] at hp
    obtain ⟨v, hv, hpe⟩ := List.mem_map.mp hp
    have hvf := List.mem_filter.mp hv
    exact ⟨v, hvf.1, by simpa using hvf.2, hpe.symm⟩

/-- Concrete rising-edge state with two sounding voices. -/
def c2_state : SystemState :=
  { sustain := true, previous_sustain := false, key_center := 60,
    ranks := [], voices :=
      [{ midi_note := 60, volume := 1, id := 1, sustained := false },
       { midi_note := 64, volume := 1, id := 2, sustained := false },
       { midi_note := 30, volume := 0, id := 3, sustained := false }],
    frozen_voices := [] }

/-- C2 witness: the rising-edge snapshot applied to the concrete state
    c2_state. -/
theorem handle_sustain_spec_rising_witness :
    (handle_sustain_spec c2_state).frozen_voices =
        (c2_state.voices.filter (fun v => decide (0 < v.volume))).map
          (fun v => (v.id, v.midi_note)) ∧
    (handle_sustain_spec c2_state).voices =
        c2_state.voices.map
          (fun v => if 0 < v.volume then { v with sustained := true } else v) ∧
    ((handle_sustain_spec c2_state).frozen_voices.map Prod.snd).Nodup ∧
    (∀ v ∈ c2_state.voices, 0 < v.volume →
        (v.id, v.midi_note) ∈ (handle_sustain_spec c2_state).frozen_voices) ∧
    (∀ p ∈ (handle_sustain_spec c2_state).frozen_voices,
        ∃ v ∈ c2_state.voices, 0 < v.volume ∧ p = (v.id, v.midi_note)) :=
  handle_sustain_spec_rising c2_state (by decide) (by decide) (by decide)

/-! ### The falling edge and invariant I7 (C3) -/

/-- No voice is latched: invariant I7 in list form. -/
def AllUnsustained (vs : List Voice) : Prop :=
  ∀ v ∈ vs, v.sustained = false

theorem getD_sustained_false {vs : List Voice} (hu : AllUnsustained vs) (j : ℕ) :
    (vs.getD j default).sustained = false := by
  by_cases hj : j < vs.length
  · rw [List.getD_eq_getElem _ _ hj]
    exact hu _ (List.getElem_mem hj)
  · rw [List.getD_eq_getElem?_getD, List.getElem?_eq_none (by omega), Option.getD_none]
    rfl

theorem allUnsustained_set {vs : List Voice} (j : ℕ) (v : Voice)
    (hu : AllUnsustained vs) (hv : v.sustained = false) :
    AllUnsustained (vs.set j v) := by
  intro a ha
  rcases List.mem_or_eq_of_mem_set ha with h | h
  · exact hu a h
  · rw [h]; exact hv

theorem place_voice_spec_false (vs : List Voice) (fr : List (ℕ × ℤ)) (m : ℤ) :
    (place_voice_spec false vs fr m).2 = fr ∧
    (AllUnsustained vs → AllUnsustained (place_voice_spec false vs fr m).1) := by
  unfold place_voice_spec
  cases h : find_target_spec fr vs with
  | none => exact ⟨rfl, fun hu => hu⟩
  | some j =>
    dsimp only
    rw [if_neg (by simp)]
    exact ⟨rfl, fun hu => allUnsustained_set j _ hu rfl⟩

theorem evict_once_unsust (fr : List (ℕ × ℤ)) (vs : List Voice)
    (hu : AllUnsustained vs) : AllUnsustained (evict_once fr vs) := by
  unfold evict_once
  cases max_midi_scan fr vs (List.range vs.length) none with
  | none => exact hu
  | some j => exact allUnsustained_set j _ hu (getD_sustained_false hu j)

theorem evict_loop_unsust (fr : List (ℕ × ℤ)) :
    ∀ (n : ℕ) (vs : List Voice), AllUnsustained vs →
      AllUnsustained (evict_loop fr n vs) := by
  intro n
  induction n with
  | zero => intro vs hu; exact hu
  | succ n ih => intro vs hu; exact ih _ (evict_once_unsust fr vs hu)

theorem ensure_rooted_step_spec_false (kc : ℤ) (st : List Voice × List (ℕ × ℤ))
    (rank : Rank) :
    (ensure_rooted_step_spec kc false st rank).2 = st.2 ∧
    (AllUnsustained st.1 → AllUnsustained (ensure_rooted_step_spec kc false st rank).1) := by
  unfold ensure_rooted_step_spec
  dsimp only
  split
  · exact ⟨rfl, fun hu => hu⟩
  · exact place_voice_spec_false st.1 st.2 _

theorem ensure_rooted_spec_false (kc : ℤ) :
    ∀ (ranks : List Rank) (st : List Voice × List (ℕ × ℤ)),
      (ensure_rooted_spec kc false ranks st).2 = st.2 ∧
      (AllUnsustained st.1 → AllUnsustained (ensure_rooted_spec kc false ranks st).1) := by
  intro ranks
  induction ranks with
  | nil => intro st; exact ⟨rfl, fun hu => hu⟩
  | cons r rs ih =>
    intro st
    have hstep := ensure_rooted_step_spec_false kc st r
    have hrec := ih (ensure_rooted_step_spec kc false st r)
    have hfold : ensure_rooted_spec kc false (r :: rs) st =
        ensure_rooted_spec kc false rs (ensure_rooted_step_spec kc false st r) := rfl
    rw [hfold]
    exact ⟨by rw [hrec.1, hstep.1], fun hu => hrec.2 (hstep.2 hu)⟩

theorem alloc_loop_spec_false (pmap : List ℚ) (rolls : ℕ → ℚ) (choices : ℕ → ℕ)
    (available : ℕ) :
    ∀ (n t : ℕ) (st : List Voice × List (ℕ × ℤ)),
      (alloc_loop_spec pmap rolls choices false available n t st).2 = st.2 ∧
      (AllUnsustained st.1 →
        AllUnsustained (alloc_loop_spec pmap rolls choices false available n t st).1) := by
  intro n
  induction n with
  | zero => intro t st; exact ⟨rfl, fun hu => hu⟩
  | succ n ih =>
    intro t st
    simp only [alloc_loop_spec]
    split
    · exact ⟨rfl, fun hu => hu⟩
    · cases hsample : sample_from_probability_map pmap
        (((st.1.filter (fun v => decide (0 < v.volume))).map
          (fun v => v.midi_note)).toFinset ∪ (st.2.map Prod.snd).toFinset)
        (rolls t) (choices t) with
      | none => exact ⟨rfl, fun hu => hu⟩
      | some m =>
        have hplace := place_voice_spec_false st.1 st.2 ((m : ℤ))
        have hrec := ih (t + 1) (place_voice_spec false st.1 st.2 ((m : ℤ)))
        exact ⟨by rw [hrec.1, hplace.1], fun hu => hrec.2 (hplace.2 hu)⟩

theorem handle_sustain_spec_sustain (s : SystemState) :
    (handle_sustain_spec s).sustain = s.sustain := by
  unfold handle_sustain_spec
  split_ifs <;> rfl

theorem handle_sustain_spec_off (s : SystemState) (hsus : s.sustain = false)
    (h : s.previous_sustain = true ∨ AllUnsustained s.voices) :
    AllUnsustained (handle_sustain_spec s).voices ∧
    (s.previous_sustain = true → (handle_sustain_spec s).frozen_voices = []) := by
  unfold handle_sustain_spec
  rw [if_neg (fun hc => by rw [hsus] at hc; exact Bool.false_ne_true hc.1)]
  by_cases hprev : s.previous_sustain = true
  · rw [if_pos ⟨hsus, hprev⟩]
    refine ⟨?_, fun _ => rfl⟩
    intro a ha
    obtain ⟨w, _, hwe⟩ := List.mem_map.mp ha
    rw [← hwe]
  · rw [if_neg (fun hc => hprev hc.2)]
    refine ⟨?_, fun hc => absurd hc hprev⟩
    rcases h with h | h
    · exact absurd h hprev
    · exact h

theorem allocate_pass_spec_off (s1 : SystemState) (pmap : List ℚ) (rolls : ℕ → ℚ)
    (choices : ℕ → ℕ) (hsus : s1.sustain = false) (hu : AllUnsustained s1.voices) :
    AllUnsustained (allocate_pass_spec s1 pmap rolls choices).voices ∧
    (allocate_pass_spec s1 pmap rolls choices).frozen_voices = s1.frozen_voices := by
  unfold allocate_pass_spec
  dsimp only
  split
  · refine ⟨?_, rfl⟩
    intro a ha
    obtain ⟨w, hw, hwe⟩ := List.mem_map.mp ha
    rw [← hwe]
    split
    · exact hu w hw
    · exact hu w hw
  · rw [hsus]
    refine ⟨?_, ?_⟩
    · exact (alloc_loop_spec_false pmap rolls choices _ _ 0 _).2
        ((ensure_rooted_spec_false s1.key_center _ _).2
          (evict_loop_unsust s1.frozen_voices _ s1.voices hu))
    · rw [(alloc_loop_spec_false pmap rolls choices _ _ 0 _).1,
          (ensure_rooted_spec_false s1.key_center _ _).1]

/-- C3: a tick taken with the pedal up leaves no voice sustained, and on
    the falling edge (previous_sustain true) it also clears frozen_voices;
    hence after any tick at which sustain is false, entered either at the
    falling edge or with no latched voice, no voice has sustained set. -/
theorem sustain_off_tick_clears (s : SystemState) (pmap : List ℚ) (rolls : ℕ → ℚ)
    (choices : ℕ → ℕ) (hsus : s.sustain = false)
    (hstart : s.previous_sustain = true ∨ AllUnsustained s.voices) :
    AllUnsustained (allocate_voices_spec s pmap rolls choices).voices ∧
    (s.previous_sustain = true →
      (allocate_voices_spec s pmap rolls choices).frozen_voices = []) := by
  unfold allocate_voices_spec
  have hmach := handle_sustain_spec_off s hsus hstart
  have hsus1 : (handle_sustain_spec s).sustain = false := by
    rw [handle_sustain_spec_sustain, hsus]
  have hpass := allocate_pass_spec_off (handle_sustain_spec s) pmap rolls choices
    hsus1 hmach.1
  refine ⟨hpass.1, fun hprev => ?_⟩
  rw [hpass.2, hmach.2 hprev]

/-- Concrete falling-edge state: pedal released with one latched voice. -/
def c3_state : SystemState :=
  { sustain := false, previous_sustain := true, key_center := 60,
    ranks := [{ number := 1, position := 1, grey_code := [0, 1, 0, 0], gci := 7,
                density := 2, tonicization := 1, previous_gci := 0 }],
    voices := [{ midi_note := 60, volume := 1, id := 1, sustained := true },
               { midi_note := 64, volume := 0, id := 2, sustained := false }],
    frozen_voices := [(1, 60)] }

/-- C3 witness: the falling-edge tick applied to the concrete state
    c3_state. -/
theorem sustain_off_tick_clears_witness :
    AllUnsustained (allocate_voices_spec c3_state (List.replicate 128 1)
      (fun _ => 1/2) (fun _ => 0)).voices ∧
    (c3_state.previous_sustain = true →
      (allocate_voices_spec c3_state (List.replicate 128 1)
        (fun _ => 1/2) (fun _ => 0)).frozen_voices = []) :=
  sustain_off_tick_clears c3_state (List.replicate 128 1) (fun _ => 1/2) (fun _ => 0)
    (by decide) (Or.inl (by decide))

/-! ### The frame property of frozen voices (C4) -/

/-- Containment of frozen-voice lists (the pass only appends entries). -/
def FrSub (fr0 fr : List (ℕ × ℤ)) : Prop := ∀ p ∈ fr0, p ∈ fr

theorem isFrozen_mono {fr0 fr : List (ℕ × ℤ)} (hsub : FrSub fr0 fr) {v : Voice}
    (h : isFrozen fr0 v = true) : isFrozen fr v = true := by
  rw [isFrozen, List.any_eq_true] at h ⊢
  obtain ⟨p, hp, hpv⟩ := h
  exact ⟨p, hsub p hp, hpv⟩

/-- The voices frozen at the start of the pass are untouched: same length
    and identical records at every index whose original voice is frozen. -/
def FrozenFrame (fr0 : List (ℕ × ℤ)) (vs0 vs : List Voice) : Prop :=
  vs.length = vs0.length ∧
  ∀ i < vs0.length, isFrozen fr0 (vs0.getD i default) = true →
    vs.getD i default = vs0.getD i default

theorem frozenFrame_refl (fr0 : List (ℕ × ℤ)) (vs0 : List Voice) :
    FrozenFrame fr0 vs0 vs0 := ⟨rfl, fun _ _ _ => rfl⟩

theorem frozenFrame_set (fr0 fr : List (ℕ × ℤ)) (vs0 vs : List Voice) (j : ℕ) (v : Voice)
    (hsub : FrSub fr0 fr) (hff : FrozenFrame fr0 vs0 vs)
    (htgt : isFrozen fr (vs.getD j default) = false) :
    FrozenFrame fr0 vs0 (vs.set j v) := by
  refine ⟨by rw [List.length_set]; exact hff.1, ?_⟩
  intro i hi hfz
  have hi2 : i < vs.length := by rw [hff.1]; exact hi
  rw [getD_set_lt _ hi2]
  by_cases hj : j = i
  · exfalso
    subst hj
    rw [hff.2 j hi hfz, isFrozen_mono hsub hfz] at htgt
    cases htgt
  · rw [if_neg hj]
    exact hff.2 i hi hfz

theorem find_silent_idx_not_frozen (fr : List (ℕ × ℤ)) (vs : List Voice) :
    ∀ (idxs : List ℕ) (j : ℕ), find_silent_idx fr vs idxs = some j →
      isFrozen fr (vs.getD j default) = false := by
  intro idxs
  induction idxs with
  | nil => intro j h; simp [find_silent_idx] at h
  | cons k rest ih =>
    intro j h
    simp only [find_silent_idx] at h
    by_cases hc : (vs.getD k default).volume = 0 ∧ isFrozen fr (vs.getD k default) = false
    · rw [if_pos hc] at h
      cases h
      exact hc.2
    · rw [if_neg hc] at h
      exact ih j h

theorem max_midi_scan_not_frozen (fr : List (ℕ × ℤ)) (vs : List Voice) :
    ∀ (idxs : List ℕ) (acc : Option ℕ) (j : ℕ),
      (∀ k, acc = some k → isFrozen fr (vs.getD k default) = false) →
      max_midi_scan fr vs idxs acc = some j →
      isFrozen fr (vs.getD j default) = false := by
  intro idxs
  induction idxs with
  | nil => intro acc j hacc h; exact hacc j h
  | cons k rest ih =>
    intro acc j hacc h
    simp only [max_midi_scan] at h
    by_cases hc : 0 < (vs.getD k default).volume ∧ isFrozen fr (vs.getD k default) = false
    · rw [if_pos hc] at h
      cases acc with
      | none => exact ih (some k) j (fun k2 hk2 => by cases hk2; exact hc.2) h
      | some k0 =>
        dsimp only at h
        by_cases hle : (vs.getD k0 default).midi_note ≤ (vs.getD k default).midi_note
        · rw [if_pos hle] at h
          exact ih _ j (fun k2 hk2 => by cases hk2; exact hc.2) h
        · rw [if_neg hle] at h
          exact ih _ j (fun k2 hk2 => by cases hk2; exact hacc k0 rfl) h
    · rw [if_neg hc] at h
      exact ih acc j hacc h

theorem find_target_spec_not_frozen (fr : List (ℕ × ℤ)) (vs : List Voice) (j : ℕ)
    (h : find_target_spec fr vs = some j) : isFrozen fr (vs.getD j default) = false := by
  unfold find_target_spec at h
  cases hs : find_silent_idx fr vs (List.range vs.length) with
  | some k =>
    rw [hs] at h
    cases h
    exact find_silent_idx_not_frozen fr vs _ _ hs
  | none =>
    rw [hs] at h
    exact max_midi_scan_not_frozen fr vs _ none j (fun _ hk => by cases hk) h

theorem place_voice_spec_frame (held : Bool) (fr0 fr : List (ℕ × ℤ))
    (vs0 vs : List Voice) (m : ℤ) (hsub : FrSub fr0 fr) (hff : FrozenFrame fr0 vs0 vs) :
    FrozenFrame fr0 vs0 (place_voice_spec held vs fr m).1 ∧
    FrSub fr0 (place_voice_spec held vs fr m).2 := by
  unfold place_voice_spec
  cases h : find_target_spec fr vs with
  | none => exact ⟨hff, hsub⟩
  | some j =>
    dsimp only
    have htgt := find_target_spec_not_frozen fr vs j h
    split
    · exact ⟨frozenFrame_set fr0 fr vs0 vs j _ hsub hff htgt,
        fun p hp => List.mem_append_left _ (hsub p hp)⟩
    · exact ⟨frozenFrame_set fr0 fr vs0 vs j _ hsub hff htgt, hsub⟩

theorem evict_once_frame (fr0 fr : List (ℕ × ℤ)) (vs0 vs : List Voice)
    (hsub : FrSub fr0 fr) (hff : FrozenFrame fr0 vs0 vs) :
    FrozenFrame fr0 vs0 (evict_once fr vs) := by
  unfold evict_once
  cases h : max_midi_scan fr vs (List.range vs.length) none with
  | none => exact hff
  | some j =>
    have htgt := max_midi_scan_not_frozen fr vs _ none j (fun _ hk => by cases hk) h
    exact frozenFrame_set fr0 fr vs0 vs j _ hsub hff htgt

theorem evict_loop_frame (fr0 fr : List (ℕ × ℤ)) (vs0 : List Voice)
    (hsub : FrSub fr0 fr) :
    ∀ (n : ℕ) (vs : List Voice), FrozenFrame fr0 vs0 vs →
      FrozenFrame fr0 vs0 (evict_loop fr n vs) := by
  intro n
  induction n with
  | zero => intro vs hff; exact hff
  | succ n ih => intro vs hff; exact ih _ (evict_once_frame fr0 fr vs0 vs hsub hff)

theorem ensure_rooted_step_spec_frame (kc : ℤ) (held : Bool) (fr0 : List (ℕ × ℤ))
    (vs0 : List Voice) (st : List Voice × List (ℕ × ℤ)) (rank : Rank)
    (hff : FrozenFrame fr0 vs0 st.1) (hsub : FrSub fr0 st.2) :
    FrozenFrame fr0 vs0 (ensure_rooted_step_spec kc held st rank).1 ∧
    FrSub fr0 (ensure_rooted_step_spec kc held st rank).2 := by
  unfold ensure_rooted_step_spec
  dsimp only
  split
  · exact ⟨hff, hsub⟩
  · exact place_voice_spec_frame held fr0 st.2 vs0 st.1 _ hsub hff

theorem ensure_rooted_spec_frame (kc : ℤ) (held : Bool) (fr0 : List (ℕ × ℤ))
    (vs0 : List Voice) :
    ∀ (ranks : List Rank) (st : List Voice × List (ℕ × ℤ)),
      FrozenFrame fr0 vs0 st.1 → FrSub fr0 st.2 →
      FrozenFrame fr0 vs0 (ensure_rooted_spec kc held ranks st).1 ∧
      FrSub fr0 (ensure_rooted_spec kc held ranks st).2 := by
  intro ranks
  induction ranks with
  | nil => intro st hff hsub; exact ⟨hff, hsub⟩
  | cons r rs ih =>
    intro st hff hsub
    have hstep := ensure_rooted_step_spec_frame kc held fr0 vs0 st r hff hsub
    have hfold : ensure_rooted_spec kc held (r :: rs) st =
        ensure_rooted_spec kc held rs (ensure_rooted_step_spec kc held st r) := rfl
    rw [hfold]
    exact ih _ hstep.1 hstep.2

theorem alloc_loop_spec_frame (pmap : List ℚ) (rolls : ℕ → ℚ) (choices : ℕ → ℕ)
    (held : Bool) (available : ℕ) (fr0 : List (ℕ × ℤ)) (vs0 : List Voice) :
    ∀ (n t : ℕ) (st : List Voice × List (ℕ × ℤ)),
      FrozenFrame fr0 vs0 st.1 → FrSub fr0 st.2 →
      FrozenFrame fr0 vs0 (alloc_loop_spec pmap rolls choices held available n t st).1 ∧
      FrSub fr0 (alloc_loop_spec pmap rolls choices held available n t st).2 := by
  intro n
  induction n with
  | zero => intro t st hff hsub; exact ⟨hff, hsub⟩
  | succ n ih =>
    intro t st hff hsub
    simp only [alloc_loop_spec]
    split
    · exact ⟨hff, hsub⟩
    · cases hsample : sample_from_probability_map pmap
        (((st.1.filter (fun v => decide (0 < v.volume))).map
          (fun v => v.midi_note)).toFinset ∪ (st.2.map Prod.snd).toFinset)
        (rolls t) (choices t) with
      | none => exact ⟨hff, hsub⟩
      | some m =>
        have hplace := place_voice_spec_frame held fr0 st.2 vs0 st.1 ((m : ℤ)) hsub hff
        exact ih (t + 1) _ hplace.1 hplace.2

theorem handle_sustain_spec_held (s : SystemState) (hsus : s.sustain = true)
    (hprev : s.previous_sustain = true) :
    handle_sustain_spec s = { s with previous_sustain := s.sustain } := by
  unfold handle_sustain_spec
  rw [if_neg (fun hc => by rw [hprev] at hc; simp at hc),
    if_neg (fun hc => by rw [hsus] at hc; simp at hc)]

/-- C4: while sustain is held (a HELD to HELD tick), no frozen voice is an
    allocation or steal target: every voice whose id appears in
    frozen_voices at the start of the pass has the same midi_note, volume
    and sustained fields - indeed the same record - when the pass ends. -/
theorem frozen_voices_untouched (s : SystemState) (pmap : List ℚ) (rolls : ℕ → ℚ)
    (choices : ℕ → ℕ) (hsus : s.sustain = true) (hprev : s.previous_sustain = true) :
    ∀ i < s.voices.length,
      isFrozen s.frozen_voices (s.voices.getD i default) = true →
      (allocate_voices_spec s pmap rolls choices).voices.getD i default =
        s.voices.getD i default := by
  intro i hi hfz
  unfold allocate_voices_spec
  rw [handle_sustain_spec_held s hsus hprev]
  unfold allocate_pass_spec
  dsimp only
  split
  · rw [List.getD_eq_getElem _ _ (by simpa using hi), List.getElem_map,
      ← List.getD_eq_getElem _ _ hi, if_pos hfz]
  · refine (alloc_loop_spec_frame pmap rolls choices s.sustain _ s.frozen_voices
      s.voices _ 0 _ ?_ ?_).1.2 i hi hfz
    · exact (ensure_rooted_spec_frame s.key_center s.sustain s.frozen_voices s.voices _ _
        (evict_loop_frame s.frozen_voices s.frozen_voices s.voices (fun p hp => hp) _
          s.voices (frozenFrame_refl _ _))
        (fun p hp => hp)).1
    · exact (ensure_rooted_spec_frame s.key_center s.sustain s.frozen_voices s.voices _ _
        (evict_loop_frame s.frozen_voices s.frozen_voices s.voices (fun p hp => hp) _
          s.voices (frozenFrame_refl _ _))
        (fun p hp => hp)).2

/-- Concrete HELD state: the pedal stays down around one frozen voice. -/
def c4_state : SystemState :=
  { sustain := true, previous_sustain := true, key_center := 60,
    ranks := [{ number := 1, position := 1, grey_code := [0, 1, 0, 0], gci := 7,
                density := 2, tonicization := 1, previous_gci := 0 }],
    voices := [{ midi_note := 60, volume := 1, id := 1, sustained := true },
               { midi_note := 64, volume := 0, id := 2, sustained := false }],
    frozen_voices := [(1, 60)] }

/-- C4 witness: the frame theorem applied to the frozen voice of the
    concrete HELD state c4_state. -/
theorem frozen_voices_untouched_witness :
    (allocate_voices_spec c4_state (List.replicate 128 1) (fun _ => 1/2)
        (fun _ => 0)).voices.getD 0 default = c4_state.voices.getD 0 default :=
  frozen_voices_untouched c4_state (List.replicate 128 1) (fun _ => 1/2) (fun _ => 0)
    (by decide) (by decide) 0 (by decide) (by decide)

end Fibril
